import Mathlib

/-!
Verification of the cacheline Elias-Fano codec (`cacheline-ef`).

The embedding below translates `src/lib.rs` into Lean. Machine integers
(`u64`, `usize`) are modelled as `Nat`; the two places where Rust's wrapping
subtraction can matter (`vals[l-1] - vals[0]`, `(v >> 8) - offset`,
`one_pos - idx`) are modelled with an explicit wrap at `2 ^ 64` (release-mode
semantics). Fatal `assert!` aborts are modelled as `Except.error` carrying the
panic message; the recoverable `Overflow` (`None` in Rust) is `Option.none`
inside `Except.ok`.
-/

/-- Wrapping `u64`/`usize` subtraction: `a - b` modulo `2 ^ 64`
(both arguments are machine words, hence `< 2 ^ 64`). -/
def wsub (a b : Nat) : Nat := (a + 2 ^ 64 - b) % 2 ^ 64

/-- Number of stored values per unit (`const L: usize = 44`). -/
def L : Nat := 44

/-- The 64-byte chunk `CachelineEf`. The Rust field `high_boundaries : [u64; 2]`
is split into the two words `high_boundaries0` and `high_boundaries1`;
`low_bits : [u8; 44]` is a list of length 44. -/
structure CachelineEf where
  high_boundaries0 : Nat
  high_boundaries1 : Nat
  reduced_offset : Nat
  low_bits : List Nat
deriving DecidableEq

instance : Inhabited CachelineEf := ⟨⟨0, 0, 0, List.replicate 44 0⟩⟩

/-- The `low_bits` array: zero-initialised, entry `i` set to `vals[i] & 0xff`
for `i < vals.len()` (`low_bits[i] = (v & 0xff) as u8`). -/
def lowBitsOf (vals : List Nat) : List Nat :=
  (List.range 44).map (fun i => if i < vals.length then vals.getD i 0 &&& 255 else 0)

/-- The `high_boundaries` loop of `CachelineEf::try_new`:
for `(i, &v) in vals.iter().enumerate()` it asserts `i >= last` (fatal),
computes `idx = i + ((v >> 8) - offset)`, asserts `idx < 128` (fatal), and
sets bit `idx % 64` of word `idx / 64`. `i` is the running enumeration
index, `last` the variable of the (ineffective) sortedness assertion. -/
def hbLoop (offset : Nat) : Nat → List Nat → Nat → Nat → Nat → Except String (Nat × Nat)
  | _, [], _, hb0, hb1 => .ok (hb0, hb1)
  | i, v :: rest, last, hb0, hb1 =>
    if i < last then .error "Values are not sorted!"
    else
      let idx := (i + wsub (v >>> 8) offset) % 2 ^ 64
      if idx < 128 then
        if idx < 64 then hbLoop offset (i + 1) rest i (hb0 ||| 1 <<< idx) hb1
        else hbLoop offset (i + 1) rest i hb0 (hb1 ||| 1 <<< (idx - 64))
      else .error "Value is too large!"

/-- `CachelineEf::try_new`. `.error` models a fatal `assert!` panic,
`.ok none` the recoverable `Overflow` (`None`), `.ok (some c)` success.
The checks appear in source order: non-empty, length at most 44, the span
check (returning `None`), the `2^40` domain assertion, the
`offset <= u32::MAX` assertion, then the bitmap loop. -/
def CachelineEf.tryNew (vals : List Nat) : Except String (Option CachelineEf) :=
  if vals.length = 0 then .error "List of values must not be empty."
  else if L < vals.length then .error "Number of values must be at most 44"
  else
    let l := vals.length
    if 256 * (128 - (L : Nat)) < wsub (vals.getD (l - 1) 0) (vals.getD 0 0) then .ok none
    else if vals.getD (l - 1) 0 < 2 ^ 40 then
      let offset := vals.getD 0 0 >>> 8
      if offset ≤ 2 ^ 32 - 1 then
        match hbLoop offset 0 vals 0 0 0 with
        | .error e => .error e
        | .ok hb => .ok (some ⟨hb.1, hb.2, offset, lowBitsOf vals⟩)
      else .error "vals[0] does not fit in 40 bits."
    else .error "Last value is too large!"

/-- The set-bit positions of a 64-bit word, in increasing order. -/
def setBits (w : Nat) : List Nat :=
  (List.range 64).filter (fun i => w.testBit i)

/-- `count_ones` of a 64-bit word. -/
def popcount64 (w : Nat) : Nat := (setBits w).length

/-- Modelled from the external `common_traits::SelectInWord` contract
(out of scope of the repository): returns the 0-based position of the
`k`-th (0-indexed) set bit of the 64-bit word `w`; correct for
`k < popcount64 w`, unspecified otherwise. -/
def selectInWord (w k : Nat) : Nat := (setBits w).getD k 0

/-- `CachelineEf::index`: select the `idx`-th set bit across the two
`high_boundaries` words, then return
`256 * reduced_offset + 256 * (one_pos - idx) + low_bits[idx]`
(all in `u64` arithmetic). -/
def CachelineEf.index (c : CachelineEf) (idx : Nat) : Nat :=
  let p := popcount64 c.high_boundaries0
  let one_pos :=
    if idx < p then selectInWord c.high_boundaries0 idx
    else 64 + selectInWord c.high_boundaries1 (idx - p)
  (256 * c.reduced_offset + 256 * wsub one_pos idx + c.low_bits.getD idx 0) % 2 ^ 64

/-- The vector of chunks: field `ef` is the chunk array, `len` the number of
stored values. -/
structure CachelineEfVec where
  ef : List CachelineEf
  len : Nat
deriving DecidableEq

/-- The loop of `CachelineEfVec::try_new`: for `i` in steps of 44, build a
chunk from `vals[i..min(i + 44, vals.len())]`, short-circuiting a fatal
panic (`.error`) or an `Overflow` (`.ok none`). -/
def buildChunks (vals : List Nat) : Except String (Option (List CachelineEf)) :=
  if vals = [] then .ok (some [])
  else
    match CachelineEf.tryNew (vals.take L) with
    | .error e => .error e
    | .ok none => .ok none
    | .ok (some c) =>
      match buildChunks (vals.drop L) with
      | .error e => .error e
      | .ok none => .ok none
      | .ok (some cs) => .ok (some (c :: cs))
termination_by vals.length
decreasing_by
  simp only [List.length_drop, L]
  rename_i h
  have : 0 < vals.length := List.length_pos.mpr h
  omega

/-- `CachelineEfVec::try_new`. -/
def CachelineEfVec.tryNew (vals : List Nat) : Except String (Option CachelineEfVec) :=
  match buildChunks vals with
  | .error e => .error e
  | .ok none => .ok none
  | .ok (some cs) => .ok (some ⟨cs, vals.length⟩)

/-- `CachelineEfVec::index`: the bounds assertion (fatal, with its
diagnostic message) followed by delegation to `ef[index / 44].index(index % 44)`. -/
def CachelineEfVec.index (v : CachelineEfVec) (i : Nat) : Except String Nat :=
  if i < v.len then
    .ok ((v.ef.getD (i / L) default).index (i % L))
  else
    .error ("Index " ++ toString i ++ " out of bounds. Length is " ++ toString v.len ++ ".")

/-- `CachelineEfVec::size_in_bytes`: `size_of_val` of the chunk slice; each
`CachelineEf` occupies exactly 64 bytes. -/
def CachelineEfVec.size_in_bytes (v : CachelineEfVec) : Nat := 64 * v.ef.length

/-- The bit position `p_i = i + ((values[i] >> 8) - (values[0] >> 8))` at
which the builder records value `i` (as in the loop of
`CachelineEf::try_new`; `Nat` subtraction, which agrees with the code's
`u64` subtraction on sorted input). -/
def bitPos (vals : List Nat) (i : Nat) : Nat :=
  i + (vals.getD i 0 >>> 8 - vals.getD 0 0 >>> 8)

/-- The consecutive 44-value window of `vals` starting at position `s`
(truncated at the end of the slice), as cut by `CachelineEfVec::try_new`
for `s` a multiple of 44. -/
def window (vals : List Nat) (s : Nat) : List Nat := (vals.drop s).take L

/-- The span (last minus first) of the 44-window starting at `s`. -/
def windowSpan (vals : List Nat) (s : Nat) : Nat :=
  (window vals s).getD ((window vals s).length - 1) 0 - (window vals s).getD 0 0

/-- The set-bit positions of the 128-bit `high_boundaries` bitmap of a
chunk, in increasing order (position `p` means bit `p % 64` of word
`p / 64`). -/
def setBits128 (c : CachelineEf) : List Nat :=
  setBits c.high_boundaries0 ++ (setBits c.high_boundaries1).map (fun t => 64 + t)

/-! ### Basic arithmetic and bit-level helpers -/

lemma wsub_of_le {a b : Nat} (hba : b ≤ a) (ha : a < 2 ^ 64) : wsub a b = a - b := by
  unfold wsub; omega

lemma shiftRight8_eq (v : Nat) : v >>> 8 = v / 256 := by
  rw [Nat.shiftRight_eq_div_pow]

lemma and255_eq (v : Nat) : v &&& 255 = v % 256 := by
  have h := Nat.and_pow_two_sub_one_eq_mod v 8
  norm_num at h
  exact h

lemma testBit_one_shiftLeft (n t : Nat) : (1 <<< n).testBit t = decide (n = t) := by
  rw [Nat.one_shiftLeft]
  rcases eq_or_ne n t with h | h
  · subst h; simp [Nat.testBit_two_pow_self]
  · simp [Nat.testBit_two_pow_of_ne h, h]

lemma sorted_getD_le {vals : List Nat} (hs : List.Sorted (· ≤ ·) vals) {i j : Nat}
    (hij : i ≤ j) (hj : j < vals.length) : vals.getD i 0 ≤ vals.getD j 0 := by
  rcases eq_or_lt_of_le hij with rfl | hlt
  · exact le_refl _
  · rw [List.getD_eq_getElem _ _ (lt_trans hlt hj), List.getD_eq_getElem _ _ hj]
    have := List.pairwise_iff_get.mp hs ⟨i, lt_trans hlt hj⟩ ⟨j, hj⟩ hlt
    simpa using this

/-! ### The bitmap loop as a pure fold -/

/-- Reading position `q` of the 128-bit bitmap held in two words:
bit `q % 64` of word `q / 64`. -/
def hbTest (hb : Nat × Nat) (q : Nat) : Bool :=
  if q < 64 then hb.1.testBit q else hb.2.testBit (q - 64)

/-- The bit position the loop computes for the `j`-th remaining value when
the enumeration counter stands at `i`. -/
def idxAt (offset i : Nat) (xs : List Nat) (j : Nat) : Nat :=
  (i + j + wsub (xs.getD j 0 >>> 8) offset) % 2 ^ 64

/-- The pure state transformer of the bitmap loop (no assertions). -/
def hbFold (offset : Nat) : Nat → List Nat → Nat × Nat → Nat × Nat
  | _, [], hb => hb
  | i, v :: rest, hb =>
    let idx := (i + wsub (v >>> 8) offset) % 2 ^ 64
    hbFold offset (i + 1) rest
      (if idx < 64 then (hb.1 ||| 1 <<< idx, hb.2) else (hb.1, hb.2 ||| 1 <<< (idx - 64)))

lemma idxAt_zero (offset i : Nat) (v : Nat) (rest : List Nat) :
    idxAt offset i (v :: rest) 0 = (i + wsub (v >>> 8) offset) % 2 ^ 64 := by
  simp [idxAt]

lemma idxAt_succ (offset i : Nat) (v : Nat) (rest : List Nat) (j : Nat) :
    idxAt offset i (v :: rest) (j + 1) = idxAt offset (i + 1) rest j := by
  simp only [idxAt, List.getD_cons_succ]
  ring_nf

lemma hbLoop_eq_hbFold (offset : Nat) (xs : List Nat) :
    ∀ i last hb0 hb1, last ≤ i →
      (∀ j, j < xs.length → idxAt offset i xs j < 128) →
      hbLoop offset i xs last hb0 hb1 = .ok (hbFold offset i xs (hb0, hb1)) := by
  induction xs with
  | nil => intro i last hb0 hb1 _ _; rfl
  | cons v rest ih =>
    intro i last hb0 hb1 hlast hidx
    have h0 : (i + wsub (v >>> 8) offset) % 2 ^ 64 < 128 := by
      have := hidx 0 (by simp)
      rwa [idxAt_zero] at this
    simp only [hbLoop, hbFold]
    rw [if_neg (by omega)]
    split
    · split
      · exact ih (i + 1) i _ _ (Nat.le_succ i) (fun j hj => by
          have := hidx (j + 1) (by simpa using Nat.succ_lt_succ hj)
          rwa [idxAt_succ] at this)
      · exact ih (i + 1) i _ _ (Nat.le_succ i) (fun j hj => by
          have := hidx (j + 1) (by simpa using Nat.succ_lt_succ hj)
          rwa [idxAt_succ] at this)
    · omega

lemma hbTest_or_fst (hb : Nat × Nat) (d q : Nat) (hd : d < 64) (hq : q < 128) :
    hbTest (hb.1 ||| 1 <<< d, hb.2) q = (hbTest hb q || decide (d = q)) := by
  unfold hbTest
  by_cases h : q < 64
  · simp only [if_pos h, Nat.testBit_lor, testBit_one_shiftLeft]
  · simp only [if_neg h]
    have hne : d ≠ q := by omega
    simp [hne]

lemma hbTest_or_snd (hb : Nat × Nat) (d q : Nat) (hd : 64 ≤ d) (hd' : d < 128) (hq : q < 128) :
    hbTest (hb.1, hb.2 ||| 1 <<< (d - 64)) q = (hbTest hb q || decide (d = q)) := by
  unfold hbTest
  by_cases h : q < 64
  · have hne : d ≠ q := by omega
    simp [h, hne]
  · have hiff : (d - 64 = q - 64) ↔ (d = q) := by omega
    simp only [if_neg h, Nat.testBit_lor, testBit_one_shiftLeft, hiff]

lemma hbFold_hbTest (offset : Nat) (xs : List Nat) :
    ∀ i hb q, q < 128 →
      (∀ j, j < xs.length → idxAt offset i xs j < 128) →
      (hbTest (hbFold offset i xs hb) q = true ↔
        hbTest hb q = true ∨ ∃ j, j < xs.length ∧ idxAt offset i xs j = q) := by
  induction xs with
  | nil => intro i hb q _ _; simp [hbFold]
  | cons v rest ih =>
    intro i hb q hq hidx
    have h0 : idxAt offset i (v :: rest) 0 < 128 := hidx 0 (by simp)
    rw [idxAt_zero] at h0
    have hrest : ∀ j, j < rest.length → idxAt offset (i + 1) rest j < 128 := by
      intro j hj
      have := hidx (j + 1) (by simpa using Nat.succ_lt_succ hj)
      rwa [idxAt_succ] at this
    simp only [hbFold]
    rw [ih (i + 1) _ q hq hrest]
    have hsplit : (∃ j, j < (v :: rest).length ∧ idxAt offset i (v :: rest) j = q) ↔
        (idxAt offset i (v :: rest) 0 = q ∨
          ∃ j, j < rest.length ∧ idxAt offset (i + 1) rest j = q) := by
      constructor
      · rintro ⟨j, hj, hjq⟩
        cases j with
        | zero => exact Or.inl hjq
        | succ j' =>
          right
          refine ⟨j', by simpa using hj, ?_⟩
          rwa [idxAt_succ] at hjq
      · rintro (h | ⟨j, hj, hjq⟩)
        · exact ⟨0, by simp, h⟩
        · exact ⟨j + 1, by simpa using Nat.succ_lt_succ hj, by rwa [idxAt_succ]⟩
    rw [hsplit, idxAt_zero]
    set d := (i + wsub (v >>> 8) offset) % 2 ^ 64 with hd
    by_cases hdlt : d < 64
    · rw [if_pos hdlt, hbTest_or_fst hb d q hdlt hq]
      simp only [Bool.or_eq_true, decide_eq_true_eq]
      tauto
    · rw [if_neg hdlt, hbTest_or_snd hb d q (by omega) h0 hq]
      simp only [Bool.or_eq_true, decide_eq_true_eq]
      tauto

/-! ### Chunk build characterization under the build preconditions -/

/-- The chunk value `CachelineEf::try_new` produces when no assertion fires
and the span check passes. -/
def builtChunk (vals : List Nat) : CachelineEf :=
  ⟨(hbFold (vals.getD 0 0 >>> 8) 0 vals (0, 0)).1,
    (hbFold (vals.getD 0 0 >>> 8) 0 vals (0, 0)).2,
    vals.getD 0 0 >>> 8, lowBitsOf vals⟩

lemma getD_lt_max {vals : List Nat} (hs : List.Sorted (· ≤ ·) vals)
    (hmax : vals.getD (vals.length - 1) 0 < 2 ^ 40) {i : Nat} (hi : i < vals.length) :
    vals.getD i 0 < 2 ^ 40 :=
  lt_of_le_of_lt (sorted_getD_le hs (by omega) (by omega)) hmax

lemma bitPos_eq_div (vals : List Nat) (i : Nat) :
    bitPos vals i = i + (vals.getD i 0 / 256 - vals.getD 0 0 / 256) := by
  unfold bitPos
  rw [shiftRight8_eq, shiftRight8_eq]

lemma bitPos_lt_128 {vals : List Nat} (hs : List.Sorted (· ≤ ·) vals)
    (h44 : vals.length ≤ 44)
    (hspan : vals.getD (vals.length - 1) 0 - vals.getD 0 0 ≤ 21504)
    {i : Nat} (hi : i < vals.length) : bitPos vals i < 128 := by
  rw [bitPos_eq_div]
  have h1 : vals.getD 0 0 ≤ vals.getD i 0 := sorted_getD_le hs (by omega) hi
  have h2 : vals.getD i 0 ≤ vals.getD (vals.length - 1) 0 :=
    sorted_getD_le hs (by omega) (by omega)
  omega

lemma bitPos_strictMono {vals : List Nat} (hs : List.Sorted (· ≤ ·) vals)
    {i j : Nat} (hij : i < j) (hj : j < vals.length) : bitPos vals i < bitPos vals j := by
  rw [bitPos_eq_div, bitPos_eq_div]
  have h1 : vals.getD 0 0 ≤ vals.getD i 0 := sorted_getD_le hs (by omega) (by omega)
  have h2 : vals.getD i 0 ≤ vals.getD j 0 := sorted_getD_le hs (by omega) hj
  omega

lemma idxAt_eq_bitPos {vals : List Nat} (hs : List.Sorted (· ≤ ·) vals)
    (h44 : vals.length ≤ 44)
    (hmax : vals.getD (vals.length - 1) 0 < 2 ^ 40)
    (hspan : vals.getD (vals.length - 1) 0 - vals.getD 0 0 ≤ 21504)
    {i : Nat} (hi : i < vals.length) :
    idxAt (vals.getD 0 0 >>> 8) 0 vals i = bitPos vals i := by
  unfold idxAt
  have h1 : vals.getD 0 0 ≤ vals.getD i 0 := sorted_getD_le hs (by omega) hi
  have hlt : vals.getD i 0 < 2 ^ 40 := getD_lt_max hs hmax hi
  have hsh : vals.getD 0 0 >>> 8 ≤ vals.getD i 0 >>> 8 := by
    rw [shiftRight8_eq, shiftRight8_eq]; omega
  have hsh2 : vals.getD i 0 >>> 8 < 2 ^ 64 := by
    rw [shiftRight8_eq]; omega
  rw [wsub_of_le hsh hsh2]
  have hp : bitPos vals i < 128 := bitPos_lt_128 hs h44 hspan hi
  unfold bitPos at hp ⊢
  omega

lemma tryNew_eq_built {vals : List Nat} (hs : List.Sorted (· ≤ ·) vals)
    (hne : vals ≠ []) (h44 : vals.length ≤ 44)
    (hmax : vals.getD (vals.length - 1) 0 < 2 ^ 40)
    (hspan : vals.getD (vals.length - 1) 0 - vals.getD 0 0 ≤ 21504) :
    CachelineEf.tryNew vals = .ok (some (builtChunk vals)) := by
  have hlen : 0 < vals.length := List.length_pos.mpr hne
  have hfirst_le : vals.getD 0 0 ≤ vals.getD (vals.length - 1) 0 :=
    sorted_getD_le hs (by omega) (by omega)
  unfold CachelineEf.tryNew
  rw [if_neg (by omega), if_neg (by simp only [L]; omega)]
  have hws : wsub (vals.getD (vals.length - 1) 0) (vals.getD 0 0) =
      vals.getD (vals.length - 1) 0 - vals.getD 0 0 :=
    wsub_of_le hfirst_le (by omega)
  rw [if_neg (by rw [hws]; simp only [L]; omega), if_pos hmax]
  have hoff : vals.getD 0 0 >>> 8 ≤ 2 ^ 32 - 1 := by
    rw [shiftRight8_eq]; omega
  rw [if_pos hoff]
  rw [hbLoop_eq_hbFold _ _ 0 0 0 0 (le_refl 0) (fun j hj => by
    rw [idxAt_eq_bitPos hs h44 hmax hspan hj]
    exact bitPos_lt_128 hs h44 hspan hj)]
  rfl

lemma built_hbTest {vals : List Nat} (hs : List.Sorted (· ≤ ·) vals)
    (h44 : vals.length ≤ 44)
    (hmax : vals.getD (vals.length - 1) 0 < 2 ^ 40)
    (hspan : vals.getD (vals.length - 1) 0 - vals.getD 0 0 ≤ 21504)
    {q : Nat} (hq : q < 128) :
    (hbTest (hbFold (vals.getD 0 0 >>> 8) 0 vals (0, 0)) q = true ↔
      ∃ i, i < vals.length ∧ bitPos vals i = q) := by
  rw [hbFold_hbTest _ _ 0 (0, 0) q hq (fun j hj => by
    rw [idxAt_eq_bitPos hs h44 hmax hspan hj]
    exact bitPos_lt_128 hs h44 hspan hj)]
  have hz : hbTest (0, 0) q = false := by
    unfold hbTest
    split <;> simp [Nat.zero_testBit]
  rw [hz]
  simp only [Bool.false_eq_true, false_or]
  constructor
  · rintro ⟨j, hj, hjq⟩
    exact ⟨j, hj, by rwa [idxAt_eq_bitPos hs h44 hmax hspan hj] at hjq⟩
  · rintro ⟨j, hj, hjq⟩
    exact ⟨j, hj, by rwa [idxAt_eq_bitPos hs h44 hmax hspan hj]⟩

/-! ### The position list and its split at 64 -/

/-- The list of bit positions `p_0 < p_1 < ... < p_(k-1)` of a chunk input. -/
def posList (vals : List Nat) : List Nat := (List.range vals.length).map (bitPos vals)

/-- Predicate selecting positions that land in the first bitmap word. -/
def ltWord : Nat → Bool := fun x => decide (x < 64)

/-- Positions in the first word, a prefix of `posList` by monotonicity. -/
def tList (vals : List Nat) : List Nat := (posList vals).takeWhile ltWord

/-- Positions in the second word. -/
def dList (vals : List Nat) : List Nat := (posList vals).dropWhile ltWord

lemma posList_length (vals : List Nat) : (posList vals).length = vals.length := by
  simp [posList]

lemma posList_getElem (vals : List Nat) {i : Nat} (hi : i < (posList vals).length) :
    (posList vals)[i] = bitPos vals i := by
  simp [posList]

lemma posList_sorted {vals : List Nat} (hs : List.Sorted (· ≤ ·) vals) :
    List.Sorted (· < ·) (posList vals) := by
  unfold posList
  rw [List.Sorted, List.pairwise_map]
  refine List.pairwise_iff_get.mpr (fun i j hij => ?_)
  simp only [List.get_eq_getElem, List.getElem_range]
  exact bitPos_strictMono hs hij (by simpa using j.isLt)

lemma td_append (vals : List Nat) : tList vals ++ dList vals = posList vals :=
  List.takeWhile_append_dropWhile ltWord (posList vals)

lemma mem_tList_lt {vals : List Nat} {x : Nat} (hx : x ∈ tList vals) : x < 64 := by
  have := List.mem_takeWhile_imp hx
  simpa [ltWord] using this

lemma mem_dropWhile_ge {P : List Nat} (hP : List.Sorted (· < ·) P) :
    ∀ x ∈ P.dropWhile ltWord, 64 ≤ x := by
  induction P with
  | nil => simp
  | cons a t ih =>
    intro x hx
    rw [List.dropWhile_cons] at hx
    by_cases ha : a < 64
    · rw [if_pos (by simp [ltWord, ha])] at hx
      exact ih hP.of_cons x hx
    · rw [if_neg (by simp [ltWord, ha])] at hx
      rcases List.mem_cons.mp hx with rfl | hx
      · omega
      · have : a < x := (List.pairwise_cons.mp hP).1 x hx
        omega

lemma mem_dList_ge {vals : List Nat} (hs : List.Sorted (· ≤ ·) vals) {x : Nat}
    (hx : x ∈ dList vals) : 64 ≤ x :=
  mem_dropWhile_ge (posList_sorted hs) x hx

lemma tList_length_le (vals : List Nat) : (tList vals).length ≤ vals.length := by
  have h := congrArg List.length (td_append vals)
  rw [List.length_append, posList_length] at h
  omega

lemma dList_length (vals : List Nat) :
    (dList vals).length = vals.length - (tList vals).length := by
  have h := congrArg List.length (td_append vals)
  rw [List.length_append, posList_length] at h
  omega

lemma posList_getD {vals : List Nat} {i : Nat} (hi : i < vals.length) :
    (posList vals).getD i 0 = bitPos vals i := by
  have h : i < (posList vals).length := by rwa [posList_length]
  rw [List.getD_eq_getElem _ _ h, posList_getElem]

lemma tList_getD {vals : List Nat} {i : Nat} (hi : i < (tList vals).length) :
    (tList vals).getD i 0 = bitPos vals i := by
  have hplen : i < vals.length := by
    have := tList_length_le vals
    omega
  rw [← List.getD_append (tList vals) (dList vals) 0 i hi, td_append, posList_getD hplen]

lemma dList_getD {vals : List Nat} {j : Nat} (hj : j < (dList vals).length) :
    (dList vals).getD j 0 = bitPos vals ((tList vals).length + j) := by
  have hd := dList_length vals
  have hplen : (tList vals).length + j < vals.length := by omega
  have hgd := List.getD_append_right (tList vals) (dList vals) 0
    ((tList vals).length + j) (by omega)
  rw [td_append, Nat.add_sub_cancel_left] at hgd
  rw [← hgd, posList_getD hplen]

lemma dList_getD_mem {vals : List Nat} {j : Nat} (hj : j < (dList vals).length) :
    (dList vals).getD j 0 ∈ dList vals := by
  rw [List.getD_eq_getElem _ _ hj]
  exact List.getElem_mem hj

lemma tList_getD_mem {vals : List Nat} {i : Nat} (hi : i < (tList vals).length) :
    (tList vals).getD i 0 ∈ tList vals := by
  rw [List.getD_eq_getElem _ _ hi]
  exact List.getElem_mem hi

lemma bitPos_lt64_iff_lt_m {vals : List Nat} (hs : List.Sorted (· ≤ ·) vals)
    {i : Nat} (hi : i < vals.length) :
    bitPos vals i < 64 ↔ i < (tList vals).length := by
  constructor
  · intro hlt
    by_contra hge
    push_neg at hge
    have hd : i - (tList vals).length < (dList vals).length := by
      rw [dList_length]; omega
    have heq := dList_getD hd
    rw [Nat.add_sub_cancel' hge] at heq
    have h64 : 64 ≤ (dList vals).getD (i - (tList vals).length) 0 :=
      mem_dList_ge hs (dList_getD_mem hd)
    omega
  · intro hlt
    have heq := tList_getD hlt
    have := mem_tList_lt (tList_getD_mem hlt)
    omega

/-! ### Identifying the bitmap's set-bit lists -/

lemma mem_setBits {w q : Nat} : q ∈ setBits w ↔ q < 64 ∧ w.testBit q = true := by
  simp [setBits, List.mem_filter, List.mem_range]

lemma setBits_sorted (w : Nat) : List.Sorted (· < ·) (setBits w) :=
  (List.sorted_lt_range 64).filter _

lemma sorted_eq_of_mem_iff {P Q : List Nat} (hP : List.Sorted (· < ·) P)
    (hQ : List.Sorted (· < ·) Q) (h : ∀ x, x ∈ P ↔ x ∈ Q) : P = Q :=
  List.eq_of_perm_of_sorted ((List.perm_ext_iff_of_nodup hP.nodup hQ.nodup).mpr h) hP hQ

lemma dList_sorted {vals : List Nat} (hs : List.Sorted (· ≤ ·) vals) :
    List.Sorted (· < ·) (dList vals) := by
  have h := posList_sorted hs
  rw [← td_append vals] at h
  exact (List.pairwise_append.mp h).2.1

lemma tList_sorted {vals : List Nat} (hs : List.Sorted (· ≤ ·) vals) :
    List.Sorted (· < ·) (tList vals) := by
  have h := posList_sorted hs
  rw [← td_append vals] at h
  exact (List.pairwise_append.mp h).1

lemma built_setBits0 {vals : List Nat} (hs : List.Sorted (· ≤ ·) vals)
    (h44 : vals.length ≤ 44)
    (hmax : vals.getD (vals.length - 1) 0 < 2 ^ 40)
    (hspan : vals.getD (vals.length - 1) 0 - vals.getD 0 0 ≤ 21504) :
    setBits (builtChunk vals).high_boundaries0 = tList vals := by
  refine (sorted_eq_of_mem_iff (setBits_sorted _) (tList_sorted hs) (fun q => ?_)).symm.symm
  rw [mem_setBits]
  constructor
  · rintro ⟨hq64, htb⟩
    have htest : hbTest (hbFold (vals.getD 0 0 >>> 8) 0 vals (0, 0)) q = true := by
      unfold hbTest
      rw [if_pos hq64]
      exact htb
    obtain ⟨i, hi, hbp⟩ := (built_hbTest hs h44 hmax hspan (by omega)).mp htest
    have him : i < (tList vals).length := (bitPos_lt64_iff_lt_m hs hi).mp (by omega)
    have ht := tList_getD him
    rw [← ht] at hbp
    exact hbp ▸ tList_getD_mem him
  · intro hq
    obtain ⟨i, hi, hiq⟩ := List.mem_iff_getElem.mp hq
    have hq64 : q < 64 := mem_tList_lt hq
    refine ⟨hq64, ?_⟩
    have hbp : bitPos vals i = q := by
      rw [← hiq, ← List.getD_eq_getElem _ _ hi, tList_getD hi]
    have hil : i < vals.length := by
      have := tList_length_le vals
      omega
    have htest := (built_hbTest hs h44 hmax hspan (q := q) (by omega)).mpr ⟨i, hil, hbp⟩
    unfold hbTest at htest
    rwa [if_pos hq64] at htest

lemma built_setBits1 {vals : List Nat} (hs : List.Sorted (· ≤ ·) vals)
    (h44 : vals.length ≤ 44)
    (hmax : vals.getD (vals.length - 1) 0 < 2 ^ 40)
    (hspan : vals.getD (vals.length - 1) 0 - vals.getD 0 0 ≤ 21504) :
    setBits (builtChunk vals).high_boundaries1 = (dList vals).map (fun x => x - 64) := by
  have hdlen : (dList vals).length = vals.length - (tList vals).length := dList_length vals
  refine sorted_eq_of_mem_iff (setBits_sorted _) ?_ (fun q => ?_)
  · rw [List.Sorted, List.pairwise_map]
    refine (dList_sorted hs).imp_of_mem (fun ha hb hab => ?_)
    have := mem_dList_ge hs ha
    omega
  · rw [mem_setBits]
    constructor
    · rintro ⟨hq64, htb⟩
      have htest : hbTest (hbFold (vals.getD 0 0 >>> 8) 0 vals (0, 0)) (64 + q) = true := by
        unfold hbTest
        rw [if_neg (by omega)]
        have h64q : 64 + q - 64 = q := by omega
        rw [h64q]
        exact htb
      obtain ⟨i, hi, hbp⟩ := (built_hbTest hs h44 hmax hspan (by omega)).mp htest
      have hige : ¬ i < (tList vals).length := by
        intro hcon
        have := (bitPos_lt64_iff_lt_m hs hi).mpr hcon
        omega
      push_neg at hige
      have hd : i - (tList vals).length < (dList vals).length := by omega
      have hdg := dList_getD hd
      rw [Nat.add_sub_cancel' hige] at hdg
      refine List.mem_map.mpr
        ⟨(dList vals).getD (i - (tList vals).length) 0, dList_getD_mem hd, ?_⟩
      show (dList vals).getD (i - (tList vals).length) 0 - 64 = q
      omega
    · intro hq
      obtain ⟨x, hxmem, hxq⟩ := List.mem_map.mp hq
      obtain ⟨j, hj, hjx⟩ := List.mem_iff_getElem.mp hxmem
      have hx64 : 64 ≤ x := mem_dList_ge hs hxmem
      have hil : (tList vals).length + j < vals.length := by omega
      have hxbp : bitPos vals ((tList vals).length + j) = x := by
        rw [← hjx, ← List.getD_eq_getElem _ _ hj, dList_getD hj]
      have hx128 : x < 128 := by
        rw [← hxbp]
        exact bitPos_lt_128 hs h44 hspan hil
      have hq64 : q < 64 := by omega
      refine ⟨hq64, ?_⟩
      have htest := (built_hbTest hs h44 hmax hspan (q := 64 + q) (by omega)).mpr
        ⟨(tList vals).length + j, hil, by omega⟩
      unfold hbTest at htest
      rw [if_neg (by omega)] at htest
      have h64q : 64 + q - 64 = q := by omega
      rw [h64q] at htest
      exact htest

/-! ### Decoder correctness on a built chunk -/

lemma CachelineEf.index_def (c : CachelineEf) (idx : Nat) :
    c.index idx =
      (256 * c.reduced_offset +
        256 * wsub (if idx < popcount64 c.high_boundaries0
            then selectInWord c.high_boundaries0 idx
            else 64 + selectInWord c.high_boundaries1 (idx - popcount64 c.high_boundaries0)) idx +
        c.low_bits.getD idx 0) % 2 ^ 64 := rfl

lemma lowBitsOf_getD {vals : List Nat} {i : Nat} (hi : i < vals.length)
    (h44 : vals.length ≤ 44) : (lowBitsOf vals).getD i 0 = vals.getD i 0 % 256 := by
  have h44i : i < 44 := by omega
  have hlen : i < (lowBitsOf vals).length := by simp [lowBitsOf]; omega
  rw [List.getD_eq_getElem _ _ hlen]
  simp only [lowBitsOf, List.getElem_map, List.getElem_range]
  rw [if_pos hi, and255_eq]

lemma built_one_pos {vals : List Nat} (hs : List.Sorted (· ≤ ·) vals)
    (h44 : vals.length ≤ 44)
    (hmax : vals.getD (vals.length - 1) 0 < 2 ^ 40)
    (hspan : vals.getD (vals.length - 1) 0 - vals.getD 0 0 ≤ 21504)
    {i : Nat} (hi : i < vals.length) :
    (if i < popcount64 (builtChunk vals).high_boundaries0
      then selectInWord (builtChunk vals).high_boundaries0 i
      else 64 + selectInWord (builtChunk vals).high_boundaries1
        (i - popcount64 (builtChunk vals).high_boundaries0)) = bitPos vals i := by
  have hm : popcount64 (builtChunk vals).high_boundaries0 = (tList vals).length := by
    rw [popcount64, built_setBits0 hs h44 hmax hspan]
  by_cases hcase : i < (tList vals).length
  · rw [if_pos (by rwa [hm])]
    rw [selectInWord, built_setBits0 hs h44 hmax hspan, tList_getD hcase]
  · rw [if_neg (by rwa [hm])]
    rw [hm]
    have hge : (tList vals).length ≤ i := by omega
    have hd : i - (tList vals).length < (dList vals).length := by
      rw [dList_length]; omega
    have hdm : i - (tList vals).length < ((dList vals).map (fun x => x - 64)).length := by
      simpa using hd
    rw [selectInWord, built_setBits1 hs h44 hmax hspan, List.getD_eq_getElem _ _ hdm,
      List.getElem_map, ← List.getD_eq_getElem _ _ hd, dList_getD hd,
      Nat.add_sub_cancel' hge]
    have h64 : 64 ≤ bitPos vals i := by
      by_contra hcon
      push_neg at hcon
      exact hcase ((bitPos_lt64_iff_lt_m hs hi).mp hcon)
    omega

lemma built_index {vals : List Nat} (hs : List.Sorted (· ≤ ·) vals)
    (h44 : vals.length ≤ 44)
    (hmax : vals.getD (vals.length - 1) 0 < 2 ^ 40)
    (hspan : vals.getD (vals.length - 1) 0 - vals.getD 0 0 ≤ 21504)
    {i : Nat} (hi : i < vals.length) :
    (builtChunk vals).index i = vals.getD i 0 := by
  rw [CachelineEf.index_def, built_one_pos hs h44 hmax hspan hi]
  have hro : (builtChunk vals).reduced_offset = vals.getD 0 0 >>> 8 := rfl
  have hlb : (builtChunk vals).low_bits = lowBitsOf vals := rfl
  rw [hro, hlb, lowBitsOf_getD hi h44, shiftRight8_eq]
  have hp128 : bitPos vals i < 128 := bitPos_lt_128 hs h44 hspan hi
  have hpi : i ≤ bitPos vals i := by unfold bitPos; omega
  rw [wsub_of_le hpi (by omega)]
  have hdiv := bitPos_eq_div vals i
  have h0le : vals.getD 0 0 ≤ vals.getD i 0 := sorted_getD_le hs (by omega) hi
  have hmax' : vals.getD i 0 < 2 ^ 40 := getD_lt_max hs hmax hi
  omega

/-! ### Overflow behaviour of the chunk builder -/

lemma tryNew_overflow {vals : List Nat} (hs : List.Sorted (· ≤ ·) vals)
    (hne : vals ≠ []) (h44 : vals.length ≤ 44)
    (hmax : vals.getD (vals.length - 1) 0 < 2 ^ 40)
    (hspan : 21504 < vals.getD (vals.length - 1) 0 - vals.getD 0 0) :
    CachelineEf.tryNew vals = .ok none := by
  have hlen : 0 < vals.length := List.length_pos.mpr hne
  have hfirst_le : vals.getD 0 0 ≤ vals.getD (vals.length - 1) 0 :=
    sorted_getD_le hs (by omega) (by omega)
  unfold CachelineEf.tryNew
  rw [if_neg (by omega), if_neg (by simp only [L]; omega)]
  have hws : wsub (vals.getD (vals.length - 1) 0) (vals.getD 0 0) =
      vals.getD (vals.length - 1) 0 - vals.getD 0 0 :=
    wsub_of_le hfirst_le (by omega)
  rw [if_pos (by rw [hws]; simp only [L]; omega)]

/-! ### Window bookkeeping for the vector builder -/

lemma getD_take {l : List Nat} {n i : Nat} (h : i < n) (hi : i < l.length) :
    (l.take n).getD i 0 = l.getD i 0 := by
  have hlen : i < (l.take n).length := by simp; omega
  rw [List.getD_eq_getElem _ _ hlen, List.getD_eq_getElem _ _ hi, List.getElem_take l]

lemma getD_drop {l : List Nat} {n i : Nat} (hi : n + i < l.length) :
    (l.drop n).getD i 0 = l.getD (n + i) 0 := by
  have hlen : i < (l.drop n).length := by simp; omega
  rw [List.getD_eq_getElem _ _ hlen, List.getD_eq_getElem _ _ hi, List.getElem_drop l]

lemma sorted_take {l : List Nat} (hs : List.Sorted (· ≤ ·) l) (n : Nat) :
    List.Sorted (· ≤ ·) (l.take n) :=
  List.Pairwise.sublist (List.take_sublist n l) hs

lemma sorted_drop {l : List Nat} (hs : List.Sorted (· ≤ ·) l) (n : Nat) :
    List.Sorted (· ≤ ·) (l.drop n) :=
  List.Pairwise.sublist (List.drop_sublist n l) hs

lemma windowSpan_zero (vals : List Nat) :
    windowSpan vals 0 =
      (vals.take L).getD ((vals.take L).length - 1) 0 - (vals.take L).getD 0 0 := by
  unfold windowSpan window
  rw [List.drop_zero]

lemma window_drop (vals : List Nat) (j : Nat) :
    window (vals.drop L) (L * j) = window vals (L * (j + 1)) := by
  unfold window
  rw [List.drop_drop]
  have h : L + L * j = L * (j + 1) := by simp only [L]; omega
  rw [h]

lemma windowSpan_drop (vals : List Nat) (j : Nat) :
    windowSpan (vals.drop L) (L * j) = windowSpan vals (L * (j + 1)) := by
  unfold windowSpan
  rw [window_drop]

lemma getD_lt_of_forall {vals : List Nat} (hbound : ∀ x ∈ vals, x < 2 ^ 40)
    {i : Nat} (hi : i < vals.length) : vals.getD i 0 < 2 ^ 40 := by
  rw [List.getD_eq_getElem _ _ hi]
  exact hbound _ (List.getElem_mem hi)

lemma take_chunk_hyps {vals : List Nat} (hs : List.Sorted (· ≤ ·) vals)
    (hnil : vals ≠ []) (hbound : ∀ x ∈ vals, x < 2 ^ 40) :
    (vals.take L) ≠ [] ∧ (vals.take L).length ≤ 44 ∧
      (vals.take L).getD ((vals.take L).length - 1) 0 < 2 ^ 40 ∧
      List.Sorted (· ≤ ·) (vals.take L) := by
  have hlen : 0 < vals.length := List.length_pos.mpr hnil
  have hwlen : (vals.take L).length = min L vals.length := List.length_take L vals
  have hLpos : 0 < L := by simp [L]
  refine ⟨?_, ?_, ?_, sorted_take hs L⟩
  · intro hcon
    rw [hcon] at hwlen
    simp at hwlen
    omega
  · rw [hwlen]; simp only [L]; omega
  · have hi1 : (vals.take L).length - 1 < L := by omega
    have hi2 : (vals.take L).length - 1 < vals.length := by omega
    rw [getD_take hi1 hi2]
    exact getD_lt_of_forall hbound hi2

lemma buildChunks_ok (vals : List Nat) (hs : List.Sorted (· ≤ ·) vals)
    (hbound : ∀ x ∈ vals, x < 2 ^ 40)
    (hwin : ∀ j : Nat, 44 * j < vals.length → windowSpan vals (44 * j) ≤ 21504) :
    ∃ cs, buildChunks vals = .ok (some cs) ∧ cs.length = (vals.length + 43) / 44 ∧
      ∀ i, i < vals.length → (cs.getD (i / 44) default).index (i % 44) = vals.getD i 0 := by
  by_cases hnil : vals = []
  · subst hnil
    refine ⟨[], by rw [buildChunks]; rfl, by simp, by simp⟩
  · have hlen : 0 < vals.length := List.length_pos.mpr hnil
    obtain ⟨hw_ne, hw_44, hw_max, hw_sorted⟩ := take_chunk_hyps hs hnil hbound
    have hw_span : (vals.take L).getD ((vals.take L).length - 1) 0 -
        (vals.take L).getD 0 0 ≤ 21504 := by
      rw [← windowSpan_zero]
      have := hwin 0 (by omega)
      simpa using this
    have htake := tryNew_eq_built hw_sorted hw_ne hw_44 hw_max hw_span
    have IH := buildChunks_ok (vals.drop L)
      (sorted_drop hs L)
      (fun x hx => hbound x (List.mem_of_mem_drop hx))
      (fun j hj => by
        have hj' : 44 * (j + 1) < vals.length := by
          rw [List.length_drop] at hj
          simp only [L] at hj ⊢
          omega
        have hLj : (44 : Nat) * j = L * j := by simp only [L]
        rw [hLj, windowSpan_drop]
        have hL1 : L * (j + 1) = 44 * (j + 1) := by simp only [L]
        rw [hL1]
        exact hwin (j + 1) hj')
    obtain ⟨cs', hcs', hlen', hidx'⟩ := IH
    rw [List.length_drop] at hlen'
    refine ⟨builtChunk (vals.take L) :: cs', ?_, ?_, ?_⟩
    · rw [buildChunks, if_neg hnil, htake, hcs']
    · simp only [List.length_cons, hlen', L]
      omega
    · intro i hi
      by_cases hi44 : i < 44
      · have hdiv : i / 44 = 0 := by omega
        have hmod : i % 44 = i := by omega
        rw [hdiv, hmod, List.getD_cons_zero]
        have hiw : i < (vals.take L).length := by
          rw [List.length_take]
          simp only [L]
          omega
        rw [built_index hw_sorted hw_44 hw_max hw_span hiw]
        exact getD_take (by simp only [L]; omega) (by omega)
      · have hdiv : i / 44 = (i - 44) / 44 + 1 := by omega
        have hmod : i % 44 = (i - 44) % 44 := by omega
        rw [hdiv, hmod, List.getD_cons_succ]
        have hi' : i - 44 < (vals.drop L).length := by
          rw [List.length_drop]
          simp only [L]
          omega
        rw [hidx' (i - 44) hi']
        have hd := getD_drop (l := vals) (n := L) (i := i - 44)
          (by simp only [L]; omega)
        rw [hd]
        have heq : L + (i - 44) = i := by simp only [L]; omega
        rw [heq]
termination_by vals.length
decreasing_by
  simp only [List.length_drop, L]
  omega

lemma buildChunks_overflow (vals : List Nat) (hs : List.Sorted (· ≤ ·) vals)
    (hbound : ∀ x ∈ vals, x < 2 ^ 40)
    (hex : ∃ j : Nat, 21504 < windowSpan vals (44 * j)) :
    buildChunks vals = .ok none := by
  obtain ⟨j, hj⟩ := hex
  by_cases hnil : vals = []
  · exfalso
    subst hnil
    unfold windowSpan window at hj
    simp at hj
  · have hlen : 0 < vals.length := List.length_pos.mpr hnil
    obtain ⟨hw_ne, hw_44, hw_max, hw_sorted⟩ := take_chunk_hyps hs hnil hbound
    by_cases h0 : 21504 < windowSpan vals 0
    · have hov : CachelineEf.tryNew (vals.take L) = .ok none := by
        refine tryNew_overflow hw_sorted hw_ne hw_44 hw_max ?_
        rw [← windowSpan_zero]
        exact h0
      rw [buildChunks, if_neg hnil, hov]
    · cases j with
      | zero =>
        exfalso
        simp only [Nat.mul_zero] at hj
        exact h0 hj
      | succ j' =>
        have hw_span : (vals.take L).getD ((vals.take L).length - 1) 0 -
            (vals.take L).getD 0 0 ≤ 21504 := by
          rw [← windowSpan_zero]
          omega
        have htake := tryNew_eq_built hw_sorted hw_ne hw_44 hw_max hw_span
        have IH := buildChunks_overflow (vals.drop L)
          (sorted_drop hs L)
          (fun x hx => hbound x (List.mem_of_mem_drop hx))
          ⟨j', by
            have hLj : (44 : Nat) * j' = L * j' := by simp only [L]
            rw [hLj, windowSpan_drop]
            have hL1 : L * (j' + 1) = 44 * (j' + 1) := by simp only [L]
            rw [hL1]
            exact hj⟩
        rw [buildChunks, if_neg hnil, htake, IH]
termination_by vals.length
decreasing_by
  simp only [List.length_drop, L]
  omega

/-! ### Remaining chunk facts for the invariants claim -/

lemma lowBitsOf_getD_zero {vals : List Nat} {i : Nat} (hi : vals.length ≤ i) :
    (lowBitsOf vals).getD i 0 = 0 := by
  by_cases h44 : i < 44
  · have hlen : i < (lowBitsOf vals).length := by simp [lowBitsOf]; omega
    rw [List.getD_eq_getElem _ _ hlen]
    simp only [lowBitsOf, List.getElem_map, List.getElem_range]
    rw [if_neg (by omega)]
  · refine List.getD_eq_default _ _ ?_
    simp only [lowBitsOf, List.length_map, List.length_range]
    omega

lemma built_setBits128 {vals : List Nat} (hs : List.Sorted (· ≤ ·) vals)
    (h44 : vals.length ≤ 44)
    (hmax : vals.getD (vals.length - 1) 0 < 2 ^ 40)
    (hspan : vals.getD (vals.length - 1) 0 - vals.getD 0 0 ≤ 21504) :
    setBits128 (builtChunk vals) = posList vals := by
  unfold setBits128
  rw [built_setBits0 hs h44 hmax hspan, built_setBits1 hs h44 hmax hspan, List.map_map]
  have hmap : (dList vals).map ((fun t => 64 + t) ∘ (fun x => x - 64)) = dList vals := by
    have h1 : (dList vals).map ((fun t => 64 + t) ∘ (fun x => x - 64)) =
        (dList vals).map (fun x => x) :=
      List.map_congr_left (fun x hx => by
        have := mem_dList_ge hs hx
        show 64 + (x - 64) = x
        omega)
    rw [h1, List.map_id']
  rw [hmap, td_append]

/-! ### Claim theorems -/

/-- C2: for every sorted slice of `1 ≤ k ≤ 44` values with `v[k-1] < 2^40` and
`v[k-1] - v[0] ≤ 21504`, `CachelineEf::try_new` returns a chunk `c` and
`c.index i` recovers `v[i]` exactly for every `i < k`. -/
theorem claim_chunk_roundtrip (vals : List Nat) (hs : List.Sorted (· ≤ ·) vals)
    (h1 : 1 ≤ vals.length) (h44 : vals.length ≤ 44)
    (hmax : vals.getD (vals.length - 1) 0 < 2 ^ 40)
    (hspan : vals.getD (vals.length - 1) 0 - vals.getD 0 0 ≤ 21504) :
    ∃ c, CachelineEf.tryNew vals = .ok (some c) ∧
      ∀ i, i < vals.length → c.index i = vals.getD i 0 :=
  ⟨builtChunk vals, tryNew_eq_built hs (List.length_pos.mp (by omega)) h44 hmax hspan,
    fun _ hi => built_index hs h44 hmax hspan hi⟩

theorem claim_chunk_roundtrip_witness :
    ∃ c, CachelineEf.tryNew [5, 7, 300] = .ok (some c) ∧
      ∀ i, i < ([5, 7, 300] : List Nat).length →
        c.index i = ([5, 7, 300] : List Nat).getD i 0 :=
  claim_chunk_roundtrip [5, 7, 300] (by decide) (by decide) (by decide) (by decide) (by decide)

/-- C1: for every sorted slice with `n ≥ 1`, all values `< 2^40`, and every
consecutive 44-window of span at most 21504, `CachelineEfVec::new` succeeds
(`try_new` returns `Some`, so `new` does not panic) and `index i` returns
`v[i]` for every `i < n`. -/
theorem claim_vec_roundtrip (vals : List Nat) (hs : List.Sorted (· ≤ ·) vals)
    (_h1 : 1 ≤ vals.length) (hbound : ∀ x ∈ vals, x < 2 ^ 40)
    (hwin : ∀ s, s < vals.length → windowSpan vals s ≤ 21504) :
    ∃ w, CachelineEfVec.tryNew vals = .ok (some w) ∧
      ∀ i, i < vals.length → w.index i = .ok (vals.getD i 0) := by
  obtain ⟨cs, hcs, hlen, hidx⟩ := buildChunks_ok vals hs hbound
    (fun j hj => hwin (44 * j) hj)
  refine ⟨⟨cs, vals.length⟩, ?_, ?_⟩
  · unfold CachelineEfVec.tryNew
    rw [hcs]
  · intro i hi
    unfold CachelineEfVec.index
    rw [if_pos hi]
    have hL : (L : Nat) = 44 := rfl
    rw [hL, hidx i hi]

theorem claim_vec_roundtrip_witness :
    ∃ w, CachelineEfVec.tryNew [1, 2, 3] = .ok (some w) ∧
      ∀ i, i < ([1, 2, 3] : List Nat).length →
        w.index i = .ok (([1, 2, 3] : List Nat).getD i 0) :=
  claim_vec_roundtrip [1, 2, 3] (by decide) (by decide) (by decide) (by decide)

/-- The loop's sortedness assertion `assert!(i >= last)` can never fire:
`last` holds the previous loop index, so `i >= last` always holds once the
threaded `last` starts at or below the counter. -/
lemma hbLoop_ne_sorted_error (offset : Nat) (xs : List Nat) :
    ∀ i last hb0 hb1, last ≤ i →
      hbLoop offset i xs last hb0 hb1 ≠ .error "Values are not sorted!" := by
  induction xs with
  | nil =>
    intro i last hb0 hb1 _
    simp [hbLoop]
  | cons v rest ih =>
    intro i last hb0 hb1 hle
    simp only [hbLoop]
    rw [if_neg (by omega)]
    split
    · split
      · exact ih (i + 1) i _ _ (by omega)
      · exact ih (i + 1) i _ _ (by omega)
    · intro h
      exact absurd (Except.error.inj h) (by decide)

/-- `CachelineEf::try_new` can never abort with the sortedness diagnostic:
every other abort carries a different message, and the loop's sortedness
assertion is unreachable. -/
lemma tryNew_ne_sorted_error (vals : List Nat) :
    CachelineEf.tryNew vals ≠ .error "Values are not sorted!" := by
  unfold CachelineEf.tryNew
  split
  · intro h; exact absurd (Except.error.inj h) (by decide)
  · split
    · intro h; exact absurd (Except.error.inj h) (by decide)
    · dsimp only
      split
      · simp
      · split
        · split
          · split
            · rename_i e heq
              intro h
              rw [Except.error.inj h] at heq
              exact hbLoop_ne_sorted_error _ _ 0 0 0 0 (le_refl 0) heq
            · simp
          · intro h; exact absurd (Except.error.inj h) (by decide)
        · intro h; exact absurd (Except.error.inj h) (by decide)

/-- C3 (code bug): the chunk builder's sortedness assertion compares the loop
index with the previous loop index (`assert!(i >= last)` with `last = i` of
the previous iteration), which always holds; so the builder can never abort
with its "Values are not sorted!" diagnostic on any input, and the unsorted
input `[5, 3, 10]`, which meets every other precondition, is accepted and
encoded as a chunk (which even decodes back the unsorted values) instead of
aborting fatally as the claim and the crate documentation ("Panics when:
the input is not sorted") require. -/
theorem claim_unsorted_not_detected :
    (∀ vals : List Nat, CachelineEf.tryNew vals ≠ .error "Values are not sorted!") ∧
    ¬ List.Sorted (· ≤ ·) [5, 3, 10] ∧
    ([5, 3, 10] : List Nat).length ≤ 44 ∧
    ([5, 3, 10] : List Nat).getD 2 0 < 2 ^ 40 ∧
    ∃ c, CachelineEf.tryNew [5, 3, 10] = .ok (some c) ∧
      c.index 0 = 5 ∧ c.index 1 = 3 ∧ c.index 2 = 10 :=
  ⟨tryNew_ne_sorted_error, by decide, by decide, by decide, ⟨_, rfl, rfl, rfl, rfl⟩⟩

theorem claim_unsorted_not_detected_witness :
    CachelineEf.tryNew [] ≠ .error "Values are not sorted!" ∧
    ∃ c, CachelineEf.tryNew [5, 3, 10] = .ok (some c) ∧
      c.index 0 = 5 ∧ c.index 1 = 3 ∧ c.index 2 = 10 :=
  ⟨claim_unsorted_not_detected.1 [], claim_unsorted_not_detected.2.2.2.2⟩

/-- C4 (amended): (a) for sorted, non-empty slices of at most 44 values below
`2^40`, `CachelineEf::try_new` returns `None` (Overflow) iff
`values[last] - values[0] > 21504`; (b) for every sorted slice with all
values `< 2^40` in which some chunk-aligned 44-window (the windows starting
at multiples of 44, which are the ones the builder cuts) has span over
21504, `CachelineEfVec::try_new` returns `None`. -/
theorem claim_overflow :
    (∀ vals : List Nat, List.Sorted (· ≤ ·) vals → 1 ≤ vals.length →
      vals.length ≤ 44 → vals.getD (vals.length - 1) 0 < 2 ^ 40 →
      (CachelineEf.tryNew vals = .ok none ↔
        21504 < vals.getD (vals.length - 1) 0 - vals.getD 0 0)) ∧
    (∀ vals : List Nat, List.Sorted (· ≤ ·) vals → (∀ x ∈ vals, x < 2 ^ 40) →
      (∃ j : Nat, 21504 < windowSpan vals (44 * j)) →
      CachelineEfVec.tryNew vals = .ok none) := by
  constructor
  · intro vals hs h1 h44 hmax
    constructor
    · intro hnone
      by_contra hcon
      push_neg at hcon
      rw [tryNew_eq_built hs (List.length_pos.mp (by omega)) h44 hmax hcon] at hnone
      simp at hnone
    · intro hgt
      exact tryNew_overflow hs (List.length_pos.mp (by omega)) h44 hmax hgt
  · intro vals hs hbound hex
    unfold CachelineEfVec.tryNew
    rw [buildChunks_overflow vals hs hbound hex]

theorem claim_overflow_witness :
    CachelineEf.tryNew [0, 30000] = .ok none ∧
    CachelineEfVec.tryNew [0, 30000] = .ok none :=
  ⟨(claim_overflow.1 [0, 30000] (by decide) (by decide) (by decide) (by decide)).mpr
      (by decide),
    claim_overflow.2 [0, 30000] (by decide) (by decide) ⟨0, by decide⟩⟩

/-- C4 counterexample, two parts. First: a sorted slice of 88 values below
`2^40` in which the consecutive 44-window starting at index 1 has span
30000 > 21504, yet `CachelineEfVec::try_new` succeeds (the builder only
inspects the windows starting at multiples of 44, whose spans are 0 here),
refuting the claim's quantification over every consecutive 44-window.
Second: a sorted slice whose second builder-aligned window has span
30000 > 21504 but whose first chunk holds values `>= 2^40` aborts fatally
instead of returning Overflow, so the amended claim also needs all values
below `2^40`. -/
theorem claim_overflow_cex :
    (List.Sorted (· ≤ ·) (List.replicate 44 (0 : Nat) ++ List.replicate 44 30000) ∧
      (∀ x ∈ List.replicate 44 (0 : Nat) ++ List.replicate 44 30000, x < 2 ^ 40) ∧
      21504 < windowSpan (List.replicate 44 (0 : Nat) ++ List.replicate 44 30000) 1 ∧
      ∃ w, CachelineEfVec.tryNew (List.replicate 44 (0 : Nat) ++ List.replicate 44 30000) =
        .ok (some w)) ∧
    (List.Sorted (· ≤ ·) (List.replicate 44 (2 ^ 40 : Nat) ++ [2 ^ 40, 2 ^ 40 + 30000]) ∧
      21504 < windowSpan (List.replicate 44 (2 ^ 40 : Nat) ++ [2 ^ 40, 2 ^ 40 + 30000]) 44 ∧
      CachelineEfVec.tryNew (List.replicate 44 (2 ^ 40 : Nat) ++ [2 ^ 40, 2 ^ 40 + 30000]) =
        .error "Last value is too large!") := by
  constructor
  · refine ⟨by decide, by decide, by decide, ?_⟩
    obtain ⟨cs, hcs, -, -⟩ := buildChunks_ok
      (List.replicate 44 (0 : Nat) ++ List.replicate 44 30000)
      (by decide) (by decide)
      (fun j hj => by
        have hj2 : j < 2 := by
          simp only [List.length_append, List.length_replicate] at hj
          omega
        interval_cases j <;> decide)
    refine ⟨⟨cs, 88⟩, ?_⟩
    unfold CachelineEfVec.tryNew
    rw [hcs]
    rfl
  · refine ⟨by decide, by decide, ?_⟩
    have herr : CachelineEf.tryNew
        ((List.replicate 44 (2 ^ 40 : Nat) ++ [2 ^ 40, 2 ^ 40 + 30000]).take L) =
        .error "Last value is too large!" := rfl
    unfold CachelineEfVec.tryNew
    rw [buildChunks, if_neg (by decide), herr]

/-- C5 (amended): for sorted non-empty slices of at most 44 values below
`2^40`, the builder returns Overflow exactly when the span
`values[last] - values[0]` exceeds 21504 (not when some bit position
`p_i = i + ((values[i] >> 8) - (values[0] >> 8))` reaches 128); when the
span is within bounds every `p_i` is below 128 and the build returns a
chunk. -/
theorem claim_build_overflow_condition (vals : List Nat)
    (hs : List.Sorted (· ≤ ·) vals) (h1 : 1 ≤ vals.length) (h44 : vals.length ≤ 44)
    (hmax : vals.getD (vals.length - 1) 0 < 2 ^ 40) :
    (CachelineEf.tryNew vals = .ok none ↔
      21504 < vals.getD (vals.length - 1) 0 - vals.getD 0 0) ∧
    (vals.getD (vals.length - 1) 0 - vals.getD 0 0 ≤ 21504 →
      (∀ i, i < vals.length → bitPos vals i < 128) ∧
      ∃ c, CachelineEf.tryNew vals = .ok (some c)) := by
  have hne : vals ≠ [] := List.length_pos.mp (by omega)
  constructor
  · constructor
    · intro hnone
      by_contra hcon
      push_neg at hcon
      rw [tryNew_eq_built hs hne h44 hmax hcon] at hnone
      simp at hnone
    · intro hgt
      exact tryNew_overflow hs hne h44 hmax hgt
  · intro hle
    exact ⟨fun i hi => bitPos_lt_128 hs h44 hle hi,
      builtChunk vals, tryNew_eq_built hs hne h44 hmax hle⟩

theorem claim_build_overflow_condition_witness :
    (∀ i, i < ([3] : List Nat).length → bitPos [3] i < 128) ∧
    ∃ c, CachelineEf.tryNew [3] = .ok (some c) :=
  (claim_build_overflow_condition [3] (by decide) (by decide) (by decide) (by decide)).2
    (by decide)

/-- C5 counterexample: for the sorted input `[0, 21505]` (which meets the
non-span preconditions) every bit position `p_i` is below 128
(`p_0 = 0`, `p_1 = 85`), yet the builder returns Overflow, because the code
tests `values[last] - values[0] > 21504` up front rather than testing
`p >= 128` inside the loop. -/
theorem claim_build_overflow_condition_cex :
    List.Sorted (· ≤ ·) [0, 21505] ∧
    (∀ i, i < ([0, 21505] : List Nat).length → bitPos [0, 21505] i < 128) ∧
    CachelineEf.tryNew [0, 21505] = .ok none :=
  ⟨by decide, by decide, rfl⟩

/-- C6: the chunk built from a sorted slice of `k` values meeting the
preconditions has exactly `k` set bits across the two `high_boundaries`
words; read in increasing position order they sit exactly at
`p_i = i + (values[i]/256 - values[0]/256)` (hence strictly increase with
`i`); `reduced_offset` is `values[0]/256`; and `low_bits[i]` is
`values[i] mod 256` for `i < k` and zero beyond `k`. -/
theorem claim_chunk_invariants (vals : List Nat) (hs : List.Sorted (· ≤ ·) vals)
    (h1 : 1 ≤ vals.length) (h44 : vals.length ≤ 44)
    (hmax : vals.getD (vals.length - 1) 0 < 2 ^ 40)
    (hspan : vals.getD (vals.length - 1) 0 - vals.getD 0 0 ≤ 21504) :
    ∃ c, CachelineEf.tryNew vals = .ok (some c) ∧
      popcount64 c.high_boundaries0 + popcount64 c.high_boundaries1 = vals.length ∧
      setBits128 c = (List.range vals.length).map (bitPos vals) ∧
      (∀ i, i < vals.length →
        bitPos vals i = i + (vals.getD i 0 / 256 - vals.getD 0 0 / 256)) ∧
      List.Sorted (· < ·) (setBits128 c) ∧
      c.reduced_offset = vals.getD 0 0 / 256 ∧
      (∀ i, i < vals.length → c.low_bits.getD i 0 = vals.getD i 0 % 256) ∧
      (∀ i, vals.length ≤ i → c.low_bits.getD i 0 = 0) := by
  have hne : vals ≠ [] := List.length_pos.mp (by omega)
  refine ⟨builtChunk vals, tryNew_eq_built hs hne h44 hmax hspan, ?_, ?_, ?_, ?_, ?_, ?_, ?_⟩
  · rw [popcount64, popcount64, built_setBits0 hs h44 hmax hspan,
      built_setBits1 hs h44 hmax hspan, List.length_map]
    have hd := dList_length vals
    have ht := tList_length_le vals
    omega
  · rw [built_setBits128 hs h44 hmax hspan]
    rfl
  · exact fun i _ => bitPos_eq_div vals i
  · rw [built_setBits128 hs h44 hmax hspan]
    exact posList_sorted hs
  · show vals.getD 0 0 >>> 8 = vals.getD 0 0 / 256
    exact shiftRight8_eq _
  · intro i hi
    show (lowBitsOf vals).getD i 0 = vals.getD i 0 % 256
    exact lowBitsOf_getD hi h44
  · intro i hi
    show (lowBitsOf vals).getD i 0 = 0
    exact lowBitsOf_getD_zero hi

theorem claim_chunk_invariants_witness :
    ∃ c, CachelineEf.tryNew [0, 300] = .ok (some c) ∧
      popcount64 c.high_boundaries0 + popcount64 c.high_boundaries1 =
        ([0, 300] : List Nat).length ∧
      setBits128 c = (List.range ([0, 300] : List Nat).length).map (bitPos [0, 300]) ∧
      (∀ i, i < ([0, 300] : List Nat).length →
        bitPos [0, 300] i =
          i + (([0, 300] : List Nat).getD i 0 / 256 - ([0, 300] : List Nat).getD 0 0 / 256)) ∧
      List.Sorted (· < ·) (setBits128 c) ∧
      c.reduced_offset = ([0, 300] : List Nat).getD 0 0 / 256 ∧
      (∀ i, i < ([0, 300] : List Nat).length →
        c.low_bits.getD i 0 = ([0, 300] : List Nat).getD i 0 % 256) ∧
      (∀ i, ([0, 300] : List Nat).length ≤ i → c.low_bits.getD i 0 = 0) :=
  claim_chunk_invariants [0, 300] (by decide) (by decide) (by decide) (by decide) (by decide)

/-- C7: for sorted, non-empty slices of at most 44 values below `2^40`,
`CachelineEf::try_new` never hits a fatal assertion: the offset fits in a
`u32` (implied by `values[last] < 2^40`), and the function returns `.ok`
(either a chunk or the recoverable Overflow). -/
theorem claim_chunk_no_abort (vals : List Nat) (hs : List.Sorted (· ≤ ·) vals)
    (h1 : 1 ≤ vals.length) (h44 : vals.length ≤ 44)
    (hmax : vals.getD (vals.length - 1) 0 < 2 ^ 40) :
    vals.getD 0 0 >>> 8 ≤ 2 ^ 32 - 1 ∧ ∃ r, CachelineEf.tryNew vals = .ok r := by
  have hne : vals ≠ [] := List.length_pos.mp (by omega)
  have h0 : vals.getD 0 0 ≤ vals.getD (vals.length - 1) 0 :=
    sorted_getD_le hs (by omega) (by omega)
  constructor
  · rw [shiftRight8_eq]
    omega
  · by_cases hsp : vals.getD (vals.length - 1) 0 - vals.getD 0 0 ≤ 21504
    · exact ⟨some (builtChunk vals), tryNew_eq_built hs hne h44 hmax hsp⟩
    · exact ⟨none, tryNew_overflow hs hne h44 hmax (by omega)⟩

theorem claim_chunk_no_abort_witness :
    ([42] : List Nat).getD 0 0 >>> 8 ≤ 2 ^ 32 - 1 ∧
    ∃ r, CachelineEf.tryNew [42] = .ok r :=
  claim_chunk_no_abort [42] (by decide) (by decide) (by decide) (by decide)

/-- C8: for every sorted slice meeting the build preconditions the built
vector stores the input length and occupies exactly 64 bytes per chunk,
`64 * ceil(n / 44)` bytes in total. -/
theorem claim_vec_len_size (vals : List Nat) (hs : List.Sorted (· ≤ ·) vals)
    (hbound : ∀ x ∈ vals, x < 2 ^ 40)
    (hwin : ∀ j : Nat, 44 * j < vals.length → windowSpan vals (44 * j) ≤ 21504) :
    ∃ w, CachelineEfVec.tryNew vals = .ok (some w) ∧
      w.len = vals.length ∧
      w.size_in_bytes = 64 * ((vals.length + 43) / 44) := by
  obtain ⟨cs, hcs, hlen, -⟩ := buildChunks_ok vals hs hbound hwin
  refine ⟨⟨cs, vals.length⟩, ?_, rfl, ?_⟩
  · unfold CachelineEfVec.tryNew
    rw [hcs]
  · show 64 * cs.length = 64 * ((vals.length + 43) / 44)
    rw [hlen]

theorem claim_vec_len_size_witness :
    ∃ w, CachelineEfVec.tryNew [10] = .ok (some w) ∧
      w.len = ([10] : List Nat).length ∧
      w.size_in_bytes = 64 * ((([10] : List Nat).length + 43) / 44) :=
  claim_vec_len_size [10] (by decide) (by decide)
    (fun j hj => by
      have hj0 : j = 0 := by simp at hj; omega
      subst hj0
      decide)

/-- C9: the checked query `CachelineEfVec::index i` returns
`ef[i / 44].index (i % 44)` when `i < len`, and aborts with a diagnostic
naming the index and the length exactly when `i >= len`. -/
theorem claim_vec_index (v : CachelineEfVec) (i : Nat) :
    (i < v.len →
      v.index i = .ok ((v.ef.getD (i / 44) default).index (i % 44))) ∧
    (v.index i = .error ("Index " ++ toString i ++ " out of bounds. Length is " ++
      toString v.len ++ ".") ↔ v.len ≤ i) := by
  constructor
  · intro hi
    unfold CachelineEfVec.index
    rw [if_pos hi]
    rfl
  · constructor
    · intro herr
      by_contra hcon
      push_neg at hcon
      unfold CachelineEfVec.index at herr
      rw [if_pos hcon] at herr
      exact Except.noConfusion herr
    · intro hge
      unfold CachelineEfVec.index
      rw [if_neg (by omega)]

theorem claim_vec_index_witness :
    (CachelineEfVec.mk [default] 1).index 0 =
      .ok ((([default] : List CachelineEf).getD (0 / 44) default).index (0 % 44)) ∧
    (CachelineEfVec.mk [default] 1).index 5 =
      .error ("Index " ++ toString (5 : Nat) ++ " out of bounds. Length is " ++
        toString (CachelineEfVec.mk [default] 1).len ++ ".") :=
  ⟨(claim_vec_index (CachelineEfVec.mk [default] 1) 0).1 (by decide),
    (claim_vec_index (CachelineEfVec.mk [default] 1) 5).2.mpr (by decide)⟩

/-- C10: `CachelineEfVec::try_new []` succeeds with zero chunks, length 0 and
byte size 0 (the chunk builder, whose empty-input assertion is fatal, is
never reached: calling it directly on `[]` aborts), and every `index i` on
the empty vector aborts with the bounds diagnostic. -/
theorem claim_vec_empty :
    CachelineEfVec.tryNew [] = .ok (some (CachelineEfVec.mk [] 0)) ∧
    (CachelineEfVec.mk [] 0).len = 0 ∧
    (CachelineEfVec.mk [] 0).size_in_bytes = 0 ∧
    CachelineEf.tryNew [] = .error "List of values must not be empty." ∧
    ∀ i : Nat, (CachelineEfVec.mk [] 0).index i =
      .error ("Index " ++ toString i ++ " out of bounds. Length is " ++
        toString (0 : Nat) ++ ".") := by
  refine ⟨?_, rfl, rfl, rfl, ?_⟩
  · unfold CachelineEfVec.tryNew
    rw [buildChunks]
    rfl
  · intro i
    unfold CachelineEfVec.index
    rw [if_neg (Nat.not_lt_zero i)]
